import Mathlib

/-!
Verification development for the roget Wordle solver.

Words are modelled as lists of byte values (`List Nat`); a valid word has
exactly 5 bytes, each a lowercase ASCII letter (97..122).  The feedback
computation `Correctness.compute`, the packing `Correctness.pack`, and the
early-exit matcher `Guess.matches` are translated from `src/lib.rs`; the
solver state machine `Solver.guessM` is translated from `src/solver.rs`.
Floating-point weights are embedded as exact rationals, and the
floating-point scoring expressions (`est_steps_left`, `log2`, `sigmoid`)
are abstracted as an arbitrary goodness function parameter `G`, since every
control-flow claim below holds for every such function.
-/

/-! ### Definitions -/

/-- The three feedback symbols (`Correctness` in `src/lib.rs`). -/
inductive Correctness
  | Correct
  | Misplaced
  | Wrong
deriving DecidableEq, Repr

/-- A word is 5 lowercase ASCII letters. -/
def validWordB (w : List Nat) : Prop :=
  w.length = 5 ∧ ∀ c ∈ w, 97 ≤ c ∧ c ≤ 122

instance : DecidablePred validWordB := fun w => by
  unfold validWordB; infer_instance

/-- Increment the per-letter counter table at index `i`
(`misplaced[i] += 1` in `Correctness::compute`). -/
def bumpC (t : Nat → Nat) (i : Nat) : Nat → Nat :=
  fun j => if j = i then t j + 1 else t j

/-- Decrement the per-letter counter table at index `i`
(`misplaced[i] -= 1` in `Correctness::compute`). -/
def decC (t : Nat → Nat) (i : Nat) : Nat → Nat :=
  fun j => if j = i then t j - 1 else t j

/-- First pass of `Correctness::compute`: mark position `Correct` where the
answer and guess bytes agree, and count every non-matching answer letter in
the `misplaced` table (indexed by `letter - 97`). -/
def pass1 : List Nat → List Nat → (Nat → Nat) → (List Correctness × (Nat → Nat))
  | a :: as, g :: gs, t =>
      if a = g then
        let r := pass1 as gs t
        (Correctness.Correct :: r.1, r.2)
      else
        let r := pass1 as gs (bumpC t (a - 97))
        (Correctness.Wrong :: r.1, r.2)
  | _, _, t => ([], t)

/-- Second pass of `Correctness::compute`: a non-`Correct` guess position
becomes `Misplaced` while the counter for its letter is positive, consuming
one count. -/
def pass2 : List Nat → List Correctness → (Nat → Nat) → List Correctness
  | g :: gs, c :: cs, t =>
      if c = Correctness.Wrong ∧ 0 < t (g - 97) then
        Correctness.Misplaced :: pass2 gs cs (decC t (g - 97))
      else
        c :: pass2 gs cs t
  | _, _, _ => []

/-- `Correctness::compute(answer, guess)` from `src/lib.rs`. -/
def Correctness.compute (answer guess : List Nat) : List Correctness :=
  let r := pass1 answer guess (fun _ => 0)
  pass2 guess r.1 r.2

/-- Numeric value of a feedback symbol used by `Correctness::pack`. -/
def Correctness.val : Correctness → Nat
  | .Correct => 0
  | .Misplaced => 1
  | .Wrong => 2

/-- `Correctness::pack`: fold a mask into a base-3 integer. -/
def Correctness.pack (c : List Correctness) : Nat :=
  c.foldl (fun acc x => acc * 3 + x.val) 0

/-- `Correctness::is_misplaced(letter, answer, used)` from `src/lib.rs`:
scan the answer for the first unused occurrence of `letter`, marking it
used; returns whether one was found together with the updated `used` list. -/
def isMisplaced (letter : Nat) : List Nat → List Bool → (Bool × List Bool)
  | a :: as, u :: us =>
      if a = letter ∧ u = false then (true, true :: us)
      else
        let r := isMisplaced letter as us
        (r.1, u :: r.2)
  | _, _ => (false, [])

/-- A historical guess: the guessed word and the observed mask
(`Guess` in `src/lib.rs`). -/
structure Guess where
  word : List Nat
  mask : List Correctness
deriving DecidableEq, Repr

/-- First loop of `Guess::matches`: for each position, a byte match must be
masked `Correct` and a byte mismatch must not be; on success returns the
`used` array (true exactly at matching positions). `none` models the early
`return false`. -/
def matchPass1 : List Nat → List Nat → List Correctness → Option (List Bool)
  | a :: as, g :: gs, m :: ms =>
      if a = g then
        if m = Correctness.Correct then (matchPass1 as gs ms).map (true :: ·)
        else none
      else
        if m = Correctness.Correct then none
        else (matchPass1 as gs ms).map (false :: ·)
  | _, _, _ => some []

/-- Second loop of `Guess::matches`: every non-`Correct` mask position must
agree with the greedy `is_misplaced` probe against the candidate word. -/
def matchPass2 : List Nat → List Correctness → List Nat → List Bool → Bool
  | g :: gs, e :: es, word, used =>
      if e = Correctness.Correct then matchPass2 gs es word used
      else
        let r := isMisplaced g word used
        if r.1 = decide (e = Correctness.Misplaced) then matchPass2 gs es word r.2
        else false
  | _, _, _, _ => true

/-- `Guess::matches(word)` from `src/lib.rs`: the optimized early-exit test
of whether `word` could be the answer given this historical guess. -/
def Guess.matches (g : Guess) (word : List Nat) : Bool :=
  match matchPass1 word g.word g.mask with
  | none => false
  | some used => matchPass2 g.word g.mask word used

/-- Byte encoding of the string "abcde" and friends used in the literal
test cases of the spec. -/
def wABCDE : List Nat := [97, 98, 99, 100, 101]

def wFGHIJ : List Nat := [102, 103, 104, 105, 106]

def wEABCD : List Nat := [101, 97, 98, 99, 100]

def wAABBB : List Nat := [97, 97, 98, 98, 98]

def wAACCC : List Nat := [97, 97, 99, 99, 99]

def wCCAAC : List Nat := [99, 99, 97, 97, 99]

/-- Number of positions of `A` holding `letter` that are still unused. -/
def countUnused (letter : Nat) : List Nat → List Bool → Nat
  | a :: as, u :: us => (if a = letter ∧ u = false then 1 else 0) + countUnused letter as us
  | _, _ => 0

/-- The mask produced by the first pass: `Correct` exactly at byte matches. -/
def zipCorr (A B : List Nat) : List Correctness :=
  List.zipWith (fun a b => if a = b then Correctness.Correct else Correctness.Wrong) A B

/-- The `used` array after the first loop of `matches`: true at byte matches. -/
def initUsed (A B : List Nat) : List Bool :=
  List.zipWith (fun a b => decide (a = b)) A B

/-- Compatibility of a computed symbol with an observed one: they agree on
whether the position is `Correct`. -/
def corrOk (c m : Correctness) : Prop :=
  c = Correctness.Correct ↔ m = Correctness.Correct

/-- The counter table tracks, for every letter, how many occurrences of that
letter in the answer are still unused. -/
def tableInv (t : Nat → Nat) (A : List Nat) (used : List Bool) : Prop :=
  ∀ letter, 97 ≤ letter → t (letter - 97) = countUnused letter A used

/-- A dictionary entry held in the Solver's remaining set: the tuple
`(&'static str, f64, usize)` of word, weight and stable dictionary index,
with the `f64` weight embedded as an exact rational. -/
structure Entry where
  word : List Nat
  weight : ℚ
  idx : Nat
deriving DecidableEq, Repr

/-- Modelled from the spec: `PackedCorrectness` and its `From<[Correctness; 5]>`
conversion are produced by the build script and are not under `src/`; the spec
says a Pattern is "packed into a single base-3 integer in [0, 243)", which is
exactly `Correctness::pack`. -/
def packedCorrectnessFrom (mask : List Correctness) : Nat :=
  Correctness.pack mask

/-- One `totals[idx] += count` update of the bucket array in `Solver::guess`. -/
def addAt (t : Nat → ℚ) (k : Nat) (w : ℚ) : Nat → ℚ :=
  fun j => if j = k then t j + w else t j

/-- The uncached accumulation loop of `Solver::guess`: for each remaining
candidate, add its weight to the bucket of the pattern it would produce
against the scored `word`, also tracking whether `word` itself is still in
the remaining set (`in_remaining`). -/
def totalsLoopNC (word : List Nat) (word_idx : Nat) :
    List Entry → (Nat → ℚ) → Bool → ((Nat → ℚ) × Bool)
  | [], t, inr => (t, inr)
  | e :: rest, t, inr =>
      totalsLoopNC word word_idx rest
        (addAt t (packedCorrectnessFrom (Correctness.compute e.word word)) e.weight)
        (inr || decide (word_idx = e.idx))

/-- The ranking strategies (`Rank` in `src/solver.rs`). -/
inductive Rank
  | First
  | ExpectedScore
  | WeightedInformation
  | InfoPlusProbability
  | ExpectedInformation
deriving DecidableEq, Repr

/-- The option toggles (`Options` in `src/solver.rs`). -/
structure Options where
  sigmoid : Bool
  rank_by : Rank
  cache : Bool
  cutoff : Bool
  hard_mode : Bool
deriving DecidableEq, Repr

/-- The memoization table `COMPUTES`: for each guess index, a row mapping
answer index to an optional packed pattern. -/
def CacheT : Type := Nat → Nat → Option Nat

/-- `get_packed(row, guess, answer, answer_idx)` from `src/solver.rs`:
return the memoized packed pattern for this cell, computing
`PackedCorrectness::from(Correctness::compute(answer, guess))` and storing
it on first access. -/
def get_packed (row : Nat → Option Nat) (guess answer : List Nat) (answer_idx : Nat) :
    Nat × (Nat → Option Nat) :=
  match row answer_idx with
  | some a => (a, row)
  | none =>
      let correctness := packedCorrectnessFrom (Correctness.compute answer guess)
      (correctness, fun j => if j = answer_idx then some correctness else row j)

/-- The Solver state (`Solver` in `src/solver.rs`): remaining candidates,
options and the index of the last returned guess. The `entropy` vector is
read only by the `finish` diagnostic hook (disabled via `PRINT_ESTIMATION`)
and is omitted. -/
structure Solver where
  remaining : List Entry
  options : Options
  last_guess_idx : Option Nat

/-- Byte encoding of the canonical opening word "tares". -/
def tares : List Nat := [116, 97, 114, 101, 115]

/-- The cache-mode filtering closure of `Solver::guess`: retain candidates
whose memoized pattern against the last guessed word equals the observed
packed mask, threading the cache row through `get_packed`. -/
def trimCacheLoop (lastWord : List Nat) (reference : Nat) :
    List Entry → (Nat → Option Nat) → (List Entry × (Nat → Option Nat))
  | [], row => ([], row)
  | e :: rest, row =>
      let p := get_packed row lastWord e.word e.idx
      let r := trimCacheLoop lastWord reference rest p.2
      (if reference = p.1 then e :: r.1 else r.1, r.2)

/-- The cached accumulation loop of `Solver::guess`: like `totalsLoopNC`,
but fetching each packed pattern through the memoization row. -/
def totalsLoop (word : List Nat) (word_idx : Nat) :
    List Entry → (Nat → Option Nat) → (Nat → ℚ) → Bool →
      ((Nat → ℚ) × Bool × (Nat → Option Nat))
  | [], row, t, inr => (t, inr, row)
  | e :: rest, row, t, inr =>
      let inr2 := inr || decide (word_idx = e.idx)
      let p := get_packed row word e.word e.idx
      totalsLoop word word_idx rest p.2 (addAt t p.1 e.weight) inr2

/-- A scored candidate (`Candidate` in `src/solver.rs`). -/
structure Candidate where
  word : List Nat
  goodness : ℚ
  idx : Nat
deriving DecidableEq, Repr

/-- The scoring abstraction: the `goodness` computed for one candidate in
`Solver::guess` is a function of the ranking strategy, the turn number
`score`, the remaining weights (from which `remaining_p` and
`remaining_entropy` are derived), the pattern bucket totals, the
`in_remaining` flag, and the candidate's own weight `count`. The concrete
formulas use `f64` logarithms and are abstracted: every claim proved below
holds for every such function. -/
def GoodnessFn : Type :=
  Rank → ℚ → List ℚ → (Nat → ℚ) → Bool → ℚ → ℚ

/-- Result of the scoring loop: the best candidate so far, the cache after
all lookups, and (for stating the cutoff/tie-break claims) the list of
candidates the loop actually scored, in scan order. -/
structure LoopResult where
  best : Option Candidate
  cache : CacheT
  scored : List Entry

/-- One candidate's totals accumulation in the scoring loop of
`Solver::guess`: through the cache row when `options.cache` is set,
directly otherwise. Returns the bucket totals, the `in_remaining` flag and
the updated cache. -/
def totalsStep (opts : Options) (remaining : List Entry) (e : Entry) (cache : CacheT) :
    (Nat → ℚ) × Bool × CacheT :=
  if opts.cache then
    let r := totalsLoop e.word e.idx remaining (cache e.idx) (fun _ => 0) false
    ⟨r.1, r.2.1, fun gi => if gi = e.idx then r.2.2 else cache gi⟩
  else
    let r := totalsLoopNC e.word e.idx remaining (fun _ => 0) false
    ⟨r.1, r.2, cache⟩

/-- The `best` update of the scoring loop: replace the incumbent only on a
strictly greater goodness. -/
def bestStep (best : Option Candidate) (e : Entry) (g : ℚ) : Candidate :=
  match best with
  | some c => if g > c.goodness then ⟨e.word, g, e.idx⟩ else c
  | none => ⟨e.word, g, e.idx⟩

/-- The candidate scoring loop of `Solver::guess`: for each considered
entry, accumulate the pattern totals over the remaining set (via the cache
row or directly), compute its goodness, keep it as `best` only on a strict
improvement, and, when `cutoff` is on, stop once `stop` members of the
remaining set have been scored. -/
def scoreLoop (G : GoodnessFn) (opts : Options) (score : ℚ) (weights : List ℚ)
    (remaining : List Entry) (stop : Nat) :
    List Entry → Option Candidate → Nat → CacheT → LoopResult
  | [], best, _, cache => ⟨best, cache, []⟩
  | e :: rest, best, i, cache =>
      let tir := totalsStep opts remaining e cache
      let g := G opts.rank_by score weights tir.1 tir.2.1 e.weight
      let best2 := bestStep best e g
      if opts.cutoff && tir.2.1 then
        if stop ≤ i + 1 then ⟨some best2, tir.2.2, [e]⟩
        else
          let r := scoreLoop G opts score weights remaining stop rest (some best2)
            (i + 1) tir.2.2
          ⟨r.best, r.cache, e :: r.scored⟩
      else
        let r := scoreLoop G opts score weights remaining stop rest (some best2) i tir.2.2
        ⟨r.best, r.cache, e :: r.scored⟩

/-- The filtering step at the top of `Solver::guess`: when history is
non-empty, narrow the remaining set by the last guess, through the cache
row (cache mode) or through `Guess::matches` (oracle mode). `none` models
the `unwrap` panic when `last_guess_idx` was never set. -/
def filterStep (s : Solver) (cache : CacheT) (history : List Guess) :
    Option (List Entry × CacheT) :=
  match history.getLast? with
  | none => some (s.remaining, cache)
  | some last =>
      if s.options.cache then
        match s.last_guess_idx with
        | none => none
        | some lgi =>
            let r := trimCacheLoop last.word (packedCorrectnessFrom last.mask)
              s.remaining (cache lgi)
            some (r.1, fun gi => if gi = lgi then r.2 else cache gi)
      else
        some (s.remaining.filter (fun e => last.matches e.word), cache)

/-- `Solver::guess` from `src/solver.rs`, over the abstract goodness
function `G` and the initial full-dictionary list `initial` (the
`INITIAL_SIGMOID` / `INITIAL_COUNTS` list selected by `options.sigmoid`).
`none` models an aborted game: a failed `assert!`, a failed `assert_ne!`,
or an `unwrap` panic. -/
def Solver.guessM (G : GoodnessFn) (initial : List Entry) (s : Solver)
    (cache : CacheT) (history : List Guess) : Option (List Nat × Solver × CacheT) :=
  let score : ℚ := history.length
  match filterStep s cache history with
  | none => none
  | some (rem, cache1) =>
      if history.isEmpty then
        match rem.find? (fun e => decide (e.word = tares)) with
        | none => none
        | some e =>
            some (tares, { s with remaining := rem, last_guess_idx := some e.idx }, cache1)
      else if s.options.rank_by = Rank.First ∨ rem.length = 1 then
        match rem.head? with
        | none => none
        | some w =>
            some (w.word, { s with remaining := rem, last_guess_idx := some w.idx }, cache1)
      else if rem.isEmpty then none
      else
        let weights := rem.map Entry.weight
        let stop := min (max (rem.length / 3) 20) rem.length
        let consider := if s.options.hard_mode then rem else initial
        let r := scoreLoop G s.options score weights rem stop consider none 0 cache1
        match r.best with
        | none => none
        | some best =>
            if best.goodness = 0 then none
            else
              some (best.word,
                { s with remaining := rem, last_guess_idx := some best.idx }, r.cache)

/-- Whether an entry's dictionary index occurs in the remaining set (the
meaning of the `in_remaining` flag in `Solver::guess`). -/
def inRemaining (remaining : List Entry) (e : Entry) : Bool :=
  remaining.any (fun c => decide (e.idx = c.idx))

/-- The goodness that the scoring loop assigns to an entry when the cache
is disabled: a pure function of the entry. -/
def gdOf (G : GoodnessFn) (rank : Rank) (score : ℚ) (weights : List ℚ)
    (remaining : List Entry) (e : Entry) : ℚ :=
  G rank score weights (totalsLoopNC e.word e.idx remaining (fun _ => 0) false).1
    (totalsLoopNC e.word e.idx remaining (fun _ => 0) false).2 e.weight

/-- Row invariant: every populated cell of a cache row for guess word `g`
holds the packed pattern of (dictionary word, g). -/
def rowInv (dict : Nat → List Nat) (g : List Nat) (row : Nat → Option Nat) : Prop :=
  ∀ j v, row j = some v → v = packedCorrectnessFrom (Correctness.compute (dict j) g)

/-- Cache invariant: every row satisfies the row invariant for its guess word. -/
def cacheInv (dict : Nat → List Nat) (cache : CacheT) : Prop :=
  ∀ gidx, rowInv dict (dict gidx) (cache gidx)

/-! ### Theorems -/

/-- C5: Correctness::compute satisfies the spec's literal cases, including the
duplicate-letter ones: compute("abcde","abcde") is all Correct,
compute("abcde","fghij") is all Wrong, compute("abcde","eabcd") is all
Misplaced, compute("aabbb","aaccc") = [Correct,Correct,Wrong,Wrong,Wrong],
and compute("aabbb","ccaac") = [Wrong,Wrong,Misplaced,Misplaced,Wrong]. -/
theorem compute_literal_cases :
    Correctness.compute wABCDE wABCDE =
      [Correctness.Correct, Correctness.Correct, Correctness.Correct,
        Correctness.Correct, Correctness.Correct] ∧
    Correctness.compute wABCDE wFGHIJ =
      [Correctness.Wrong, Correctness.Wrong, Correctness.Wrong,
        Correctness.Wrong, Correctness.Wrong] ∧
    Correctness.compute wABCDE wEABCD =
      [Correctness.Misplaced, Correctness.Misplaced, Correctness.Misplaced,
        Correctness.Misplaced, Correctness.Misplaced] ∧
    Correctness.compute wAABBB wAACCC =
      [Correctness.Correct, Correctness.Correct, Correctness.Wrong,
        Correctness.Wrong, Correctness.Wrong] ∧
    Correctness.compute wAABBB wCCAAC =
      [Correctness.Wrong, Correctness.Wrong, Correctness.Misplaced,
        Correctness.Misplaced, Correctness.Wrong] := by
  refine ⟨?_, ?_, ?_, ?_, ?_⟩ <;> decide

theorem isMisplaced_spec (letter : Nat) :
    ∀ (A : List Nat) (used : List Bool), A.length = used.length →
    ((isMisplaced letter A used).1 = true ↔ 0 < countUnused letter A used) ∧
    ((isMisplaced letter A used).1 = false → (isMisplaced letter A used).2 = used) ∧
    (isMisplaced letter A used).2.length = used.length ∧
    (∀ m, countUnused m A (isMisplaced letter A used).2 =
      countUnused m A used -
        (if (isMisplaced letter A used).1 = true ∧ m = letter then 1 else 0)) := by
  intro A
  induction A with
  | nil =>
      intro used h
      cases used with
      | nil => simp [isMisplaced, countUnused]
      | cons u us => simp at h
  | cons a as ih =>
      intro used h
      cases used with
      | nil => simp at h
      | cons u us =>
        simp only [List.length_cons, Nat.succ.injEq] at h
        by_cases hau : a = letter ∧ u = false
        · refine ⟨?_, ?_, ?_, ?_⟩
          · simp [isMisplaced, hau, countUnused]
          · simp [isMisplaced, hau]
          · simp [isMisplaced, hau]
          · intro m
            by_cases hm : m = letter
            · subst hm
              simp [isMisplaced, hau, countUnused, hau.1, hau.2]
            · have ham' : a ≠ m := fun hc => hm (hc ▸ hau.1)
              have hm' : letter ≠ m := fun hc => hm hc.symm
              simp [isMisplaced, hau, countUnused, ham', hm, hm']
        · obtain ⟨hfound, hunch, hlen, hcount⟩ := ih us h
          refine ⟨?_, ?_, ?_, ?_⟩
          · simpa [isMisplaced, hau, countUnused] using hfound
          · intro hf
            simp only [isMisplaced, hau, if_neg hau] at hf ⊢
            simp [hunch hf]
          · simpa [isMisplaced, hau] using hlen
          · intro m
            simp only [isMisplaced, if_neg hau, countUnused]
            rw [hcount m]
            by_cases hc : (isMisplaced letter as us).1 = true ∧ m = letter
            · have hpos : 0 < countUnused m as us := by
                rw [hc.2]; exact hfound.mp hc.1
              simp only [if_pos hc]
              omega
            · simp [if_neg hc]

theorem pass1_fst : ∀ (A B : List Nat) (t : Nat → Nat), (pass1 A B t).1 = zipCorr A B := by
  intro A
  induction A with
  | nil => intro B t; cases B <;> simp [pass1, zipCorr]
  | cons a as ih =>
      intro B t
      cases B with
      | nil => simp [pass1, zipCorr]
      | cons b bs =>
          by_cases hab : a = b <;> simp [pass1, hab, zipCorr, ih bs]

theorem pass1_snd : ∀ (A B : List Nat) (t : Nat → Nat) (letter : Nat),
    97 ≤ letter → (∀ a ∈ A, 97 ≤ a) → A.length = B.length →
    (pass1 A B t).2 (letter - 97) = t (letter - 97) + countUnused letter A (initUsed A B) := by
  intro A
  induction A with
  | nil =>
      intro B t letter _ _ hlen
      cases B with
      | nil => simp [pass1, initUsed, countUnused]
      | cons b bs => simp at hlen
  | cons a as ih =>
      intro B t letter hl hA hlen
      cases B with
      | nil => simp at hlen
      | cons b bs =>
          have ha : 97 ≤ a := (hA a (List.mem_cons_self a as))
          have hA' : ∀ x ∈ as, 97 ≤ x := fun x hx => hA x (List.mem_cons_of_mem a hx)
          simp only [List.length_cons, Nat.succ.injEq] at hlen
          by_cases hab : a = b
          · simp only [pass1, if_pos hab]
            rw [ih bs t letter hl hA' hlen]
            simp [initUsed, countUnused, hab]
          · simp only [pass1, if_neg hab]
            rw [ih bs (bumpC t (a - 97)) letter hl hA' hlen]
            have hhead : initUsed (a :: as) (b :: bs) = decide (a = b) :: initUsed as bs := rfl
            by_cases hal : a = letter
            · subst hal
              have hbump : bumpC t (a - 97) (a - 97) = t (a - 97) + 1 := by simp [bumpC]
              simp only [hhead, countUnused, hbump]
              simp [initUsed, hab]
              omega
            · have hne : letter - 97 ≠ a - 97 := fun hc => hal (by omega)
              have hbump : bumpC t (a - 97) (letter - 97) = t (letter - 97) := by
                simp [bumpC, hne]
              simp only [hhead, countUnused, hbump]
              simp [initUsed, hal]

theorem matchPass1_some : ∀ (A B : List Nat) (M : List Correctness) (u : List Bool),
    A.length = B.length → B.length = M.length →
    matchPass1 A B M = some u →
    u = initUsed A B ∧ List.Forall₂ corrOk (zipCorr A B) M := by
  intro A
  induction A with
  | nil =>
      intro B M u hab hbm h
      cases B with
      | cons b bs => simp at hab
      | nil =>
          cases M with
          | cons m ms => simp at hbm
          | nil =>
              simp only [matchPass1, Option.some.injEq] at h
              simp [← h, initUsed, zipCorr]
  | cons a as ih =>
      intro B M u hab hbm h
      cases B with
      | nil => simp at hab
      | cons b bs =>
          cases M with
          | nil => simp at hbm
          | cons m ms =>
              simp only [List.length_cons, Nat.succ.injEq] at hab hbm
              by_cases hb : a = b
              · by_cases hm : m = Correctness.Correct
                · simp only [matchPass1, if_pos hb, if_pos hm, Option.map_eq_some'] at h
                  obtain ⟨u', hu', rfl⟩ := h
                  obtain ⟨hini, hfor⟩ := ih bs ms u' hab hbm hu'
                  subst hini
                  subst hm
                  refine ⟨by simp [initUsed, hb], ?_⟩
                  simp only [zipCorr, List.zipWith_cons_cons, if_pos hb]
                  exact List.Forall₂.cons (by simp [corrOk]) hfor
                · simp [matchPass1, if_pos hb, if_neg hm] at h
              · by_cases hm : m = Correctness.Correct
                · simp [matchPass1, if_neg hb, if_pos hm] at h
                · simp only [matchPass1, if_neg hb, if_neg hm, Option.map_eq_some'] at h
                  obtain ⟨u', hu', rfl⟩ := h
                  obtain ⟨hini, hfor⟩ := ih bs ms u' hab hbm hu'
                  subst hini
                  refine ⟨by simp [initUsed, hb], ?_⟩
                  simp only [zipCorr, List.zipWith_cons_cons, if_neg hb]
                  refine List.Forall₂.cons ?_ hfor
                  simp [corrOk, hm]

theorem matchPass1_of : ∀ (A B : List Nat) (M : List Correctness),
    A.length = B.length →
    List.Forall₂ corrOk (zipCorr A B) M →
    matchPass1 A B M = some (initUsed A B) := by
  intro A
  induction A with
  | nil =>
      intro B M hab hfor
      cases B with
      | cons b bs => simp at hab
      | nil =>
          simp only [zipCorr, List.zipWith_nil_left] at hfor
          cases hfor
          simp [matchPass1, initUsed]
  | cons a as ih =>
      intro B M hab hfor
      cases B with
      | nil => simp at hab
      | cons b bs =>
          simp only [List.length_cons, Nat.succ.injEq] at hab
          simp only [zipCorr, List.zipWith_cons_cons] at hfor
          cases hfor with
          | cons hhead htail =>
              rename_i m ms
              by_cases hb : a = b
              · rw [if_pos hb] at hhead
                have hm : m = Correctness.Correct := hhead.mp rfl
                simp [matchPass1, hb, hm, ih bs ms hab htail, initUsed]
              · rw [if_neg hb] at hhead
                have hm : m ≠ Correctness.Correct := by
                  intro hc
                  exact Correctness.noConfusion (hhead.mpr hc)
                simp [matchPass1, hb, hm, ih bs ms hab htail, initUsed]

theorem pass2_corrOk : ∀ (gs : List Nat) (cs : List Correctness) (t : Nat → Nat),
    gs.length = cs.length → List.Forall₂ corrOk cs (pass2 gs cs t) := by
  intro gs
  induction gs with
  | nil =>
      intro cs t hlen
      cases cs with
      | nil => simp [pass2]
      | cons c cs' => simp at hlen
  | cons g gs' ih =>
      intro cs t hlen
      cases cs with
      | nil => simp at hlen
      | cons c cs' =>
          simp only [List.length_cons, Nat.succ.injEq] at hlen
          by_cases hc : c = Correctness.Wrong ∧ 0 < t (g - 97)
          · simp only [pass2, if_pos hc]
            refine List.Forall₂.cons ?_ (ih cs' _ hlen)
            rw [hc.1]
            simp [corrOk]
          · simp only [pass2, if_neg hc]
            exact List.Forall₂.cons (Iff.rfl) (ih cs' t hlen)

theorem zipCorr_mem (A B : List Nat) :
    ∀ x ∈ zipCorr A B, x = Correctness.Correct ∨ x = Correctness.Wrong := by
  induction A generalizing B with
  | nil => intro x hx; simp [zipCorr] at hx
  | cons a as ih =>
      intro x hx
      cases B with
      | nil => simp [zipCorr] at hx
      | cons b bs =>
          simp only [zipCorr, List.zipWith_cons_cons, List.mem_cons] at hx
          rcases hx with hx | hx
          · by_cases hab : a = b
            · left; rw [hx]; simp [hab]
            · right; rw [hx]; simp [hab]
          · exact ih bs x hx

theorem forall₂_strengthen {α β : Type} {R : α → β → Prop} {P : α → Prop} :
    ∀ {l₁ : List α} {l₂ : List β}, List.Forall₂ R l₁ l₂ → (∀ x ∈ l₁, P x) →
    List.Forall₂ (fun a b => R a b ∧ P a) l₁ l₂ := by
  intro l₁ l₂ h
  induction h with
  | nil => intro _; exact List.Forall₂.nil
  | cons hab htail ih =>
      intro hP
      exact List.Forall₂.cons ⟨hab, hP _ (List.mem_cons_self _ _)⟩
        (ih fun x hx => hP x (List.mem_cons_of_mem _ hx))

theorem pass2_matchPass2 (A : List Nat) :
    ∀ (gs : List Nat) (cs ms : List Correctness) (t : Nat → Nat) (used : List Bool),
    (∀ g ∈ gs, 97 ≤ g) →
    List.Forall₂ (fun c m => corrOk c m ∧
      (c = Correctness.Correct ∨ c = Correctness.Wrong)) cs ms →
    gs.length = cs.length →
    A.length = used.length →
    tableInv t A used →
    (matchPass2 gs ms A used = true ↔ pass2 gs cs t = ms) := by
  intro gs
  induction gs with
  | nil =>
      intro cs ms t used _ hfor hlen _ _
      cases cs with
      | cons c cs' => simp at hlen
      | nil =>
          cases hfor
          simp [matchPass2, pass2]
  | cons g gs' ih =>
      intro cs ms t used hg hfor hlen hAu hinv
      cases cs with
      | nil => simp at hlen
      | cons c cs' =>
          cases hfor with
          | cons hhead htail =>
              rename_i m ms'
              simp only [List.length_cons, Nat.succ.injEq] at hlen
              have hg97 : 97 ≤ g := hg g (List.mem_cons_self g gs')
              have hg' : ∀ x ∈ gs', 97 ≤ x := fun x hx => hg x (List.mem_cons_of_mem g hx)
              obtain ⟨hok, hcw⟩ := hhead
              obtain ⟨hfound, hunch, hlen2, hcnt⟩ :=
                isMisplaced_spec g A used hAu
              rcases hcw with hcC | hcW
              · -- the computed symbol is Correct, so the observed one must be too
                have hmC : m = Correctness.Correct := hok.mp hcC
                subst hcC; subst hmC
                have hpass : pass2 (g :: gs') (Correctness.Correct :: cs') t =
                    Correctness.Correct :: pass2 gs' cs' t := by
                  simp [pass2]
                rw [hpass]
                simp only [matchPass2, if_pos rfl, List.cons.injEq, true_and]
                exact ih cs' ms' t used hg' htail hlen hAu hinv
              · -- the computed symbol is Wrong: both sides consult the counter
                have hmNC : m ≠ Correctness.Correct := fun hc =>
                  Correctness.noConfusion (hcW ▸ hok.mpr hc)
                subst hcW
                have hcount : t (g - 97) = countUnused g A used := hinv g hg97
                by_cases hpos : 0 < countUnused g A used
                · have hfnd : (isMisplaced g A used).1 = true := hfound.mpr hpos
                  have hpass : pass2 (g :: gs') (Correctness.Wrong :: cs') t =
                      Correctness.Misplaced ::
                        pass2 gs' cs' (decC t (g - 97)) := by
                    rw [pass2, if_pos ⟨rfl, hcount ▸ hpos⟩]
                  rw [hpass]
                  cases m with
                  | Correct => exact absurd rfl hmNC
                  | Misplaced =>
                      simp only [matchPass2,
                        if_neg (by decide : ¬(Correctness.Misplaced = Correctness.Correct))]
                      rw [hfnd]
                      simp only [decide_True, decide_False,
                        decide_eq_true_eq, if_pos rfl, List.cons.injEq, eq_self_iff_true, true_and]
                      refine ih cs' ms' (decC t (g - 97)) (isMisplaced g A used).2 hg' htail
                        hlen (hAu.trans hlen2.symm) ?_
                      intro letter hletter
                      rw [hcnt letter]
                      by_cases hlg : letter = g
                      · subst hlg
                        simp [decC, hinv letter hletter, hfnd]
                      · have hne : letter - 97 ≠ g - 97 := fun hc => hlg (by omega)
                        simp [decC, hne, hinv letter hletter, hlg]
                  | Wrong =>
                      simp only [matchPass2,
                        if_neg (by decide : ¬(Correctness.Wrong = Correctness.Correct))]
                      rw [hfnd]
                      simp
                · have hfnd : (isMisplaced g A used).1 = false := by
                    rcases Bool.eq_false_or_eq_true (isMisplaced g A used).1 with ht | hf
                    · exact absurd (hfound.mp ht) hpos
                    · exact hf
                  have hpass : pass2 (g :: gs') (Correctness.Wrong :: cs') t =
                      Correctness.Wrong :: pass2 gs' cs' t := by
                    rw [pass2, if_neg (fun hc => hpos (hcount ▸ hc.2))]
                  rw [hpass]
                  cases m with
                  | Correct => exact absurd rfl hmNC
                  | Misplaced =>
                      simp only [matchPass2,
                        if_neg (by decide : ¬(Correctness.Misplaced = Correctness.Correct))]
                      rw [hfnd]
                      simp
                  | Wrong =>
                      simp only [matchPass2,
                        if_neg (by decide : ¬(Correctness.Wrong = Correctness.Correct))]
                      rw [hfnd, hunch hfnd]
                      simp only [decide_True, decide_False,
                        decide_eq_false (by decide : ¬(Correctness.Wrong = Correctness.Misplaced)),
                        if_pos rfl, List.cons.injEq, eq_self_iff_true, true_and]
                      exact ih cs' ms' t used hg' htail hlen hAu hinv

theorem matches_iff_compute (A B : List Nat) (M : List Correctness)
    (hA : validWordB A) (hB : validWordB B) (hM : M.length = 5) :
    (Guess.mk B M).matches A = true ↔ Correctness.compute A B = M := by
  obtain ⟨hA5, hAv⟩ := hA
  obtain ⟨hB5, hBv⟩ := hB
  have hAB : A.length = B.length := by rw [hA5, hB5]
  have hzlen : (zipCorr A B).length = 5 := by
    simp [zipCorr, List.length_zipWith, hA5, hB5]
  have hulen : (initUsed A B).length = 5 := by
    simp [initUsed, List.length_zipWith, hA5, hB5]
  have hcompute : Correctness.compute A B =
      pass2 B (zipCorr A B) (pass1 A B (fun _ => 0)).2 := by
    show pass2 B (pass1 A B (fun _ => 0)).1 (pass1 A B (fun _ => 0)).2 =
      pass2 B (zipCorr A B) (pass1 A B (fun _ => 0)).2
    rw [pass1_fst]
  have hinv : tableInv (pass1 A B (fun _ => 0)).2 A (initUsed A B) := by
    intro letter hl
    rw [pass1_snd A B (fun _ => 0) letter hl (fun a ha => (hAv a ha).1) hAB]
    exact Nat.zero_add _
  have hBg : ∀ g ∈ B, 97 ≤ g := fun g hg => (hBv g hg).1
  constructor
  · intro h
    simp only [Guess.matches] at h
    cases hmp : matchPass1 A B M with
    | none => rw [hmp] at h; simp at h
    | some u =>
        rw [hmp] at h
        simp only [] at h
        obtain ⟨hu, hfor⟩ := matchPass1_some A B M u hAB (by rw [hB5, hM]) hmp
        subst hu
        rw [hcompute]
        exact (pass2_matchPass2 A B (zipCorr A B) M (pass1 A B (fun _ => 0)).2
          (initUsed A B) hBg (forall₂_strengthen hfor (zipCorr_mem A B))
          (by rw [hB5, hzlen]) (by rw [hA5, hulen]) hinv).mp h
  · intro h
    have hMp : pass2 B (zipCorr A B) (pass1 A B (fun _ => 0)).2 = M := by
      rw [← hcompute]; exact h
    have hfor : List.Forall₂ corrOk (zipCorr A B) M := by
      rw [← hMp]
      exact pass2_corrOk B (zipCorr A B) _ (by rw [hB5, hzlen])
    have hmp := matchPass1_of A B M hAB hfor
    simp only [Guess.matches, hmp]
    exact (pass2_matchPass2 A B (zipCorr A B) M _ (initUsed A B) hBg
      (forall₂_strengthen hfor (zipCorr_mem A B)) (by rw [hB5, hzlen])
      (by rw [hA5, hulen]) hinv).mpr hMp

/-- C1: for every pair of 5-letter lowercase ASCII words A and B and every
5-symbol mask M, Guess{word: B, mask: M}.matches(A) returns true if and only
if Correctness::compute(A, B) equals M: the optimized early-exit matcher is
extensionally equal to computing the full feedback pattern and comparing it
to the mask. -/
theorem guess_matches_iff_compute (A B : List Nat) (M : List Correctness)
    (hA : validWordB A) (hB : validWordB B) (hM : M.length = 5) :
    (Guess.mk B M).matches A = true ↔ Correctness.compute A B = M :=
  matches_iff_compute A B M hA hB hM

theorem guess_matches_iff_compute_witness :
    validWordB wAABBB ∧ validWordB wCCAAC ∧
      ([Correctness.Wrong, Correctness.Wrong, Correctness.Misplaced,
        Correctness.Misplaced, Correctness.Wrong] : List Correctness).length = 5 ∧
      ((Guess.mk wCCAAC
          [Correctness.Wrong, Correctness.Wrong, Correctness.Misplaced,
            Correctness.Misplaced, Correctness.Wrong]).matches wAABBB = true ↔
        Correctness.compute wAABBB wCCAAC =
          [Correctness.Wrong, Correctness.Wrong, Correctness.Misplaced,
            Correctness.Misplaced, Correctness.Wrong]) :=
  ⟨by decide, by decide, by decide,
    guess_matches_iff_compute wAABBB wCCAAC _ (by decide) (by decide) (by decide)⟩

theorem pack_foldl : ∀ (l : List Correctness) (acc : Nat),
    l.foldl (fun a x => a * 3 + x.val) acc = acc * 3 ^ l.length + Correctness.pack l := by
  intro l
  induction l with
  | nil => intro acc; simp [Correctness.pack]
  | cons x xs ih =>
      intro acc
      have h1 : Correctness.pack (x :: xs) = x.val * 3 ^ xs.length + Correctness.pack xs := by
        show List.foldl (fun a x => a * 3 + x.val) (0 * 3 + x.val) xs = _
        rw [ih (0 * 3 + x.val)]
        ring
      rw [List.foldl_cons, ih (acc * 3 + x.val), h1, List.length_cons, pow_succ]
      ring

theorem pack_cons (x : Correctness) (xs : List Correctness) :
    Correctness.pack (x :: xs) = x.val * 3 ^ xs.length + Correctness.pack xs := by
  show List.foldl (fun a x => a * 3 + x.val) (0 * 3 + x.val) xs = _
  rw [pack_foldl xs (0 * 3 + x.val)]
  ring

theorem pack_lt : ∀ l : List Correctness, Correctness.pack l < 3 ^ l.length := by
  intro l
  induction l with
  | nil => simp [Correctness.pack]
  | cons x xs ih =>
      have hv : x.val ≤ 2 := by cases x <;> simp [Correctness.val]
      have hp : 0 < 3 ^ xs.length := Nat.pos_pow_of_pos _ (by omega)
      rw [pack_cons, List.length_cons, pow_succ]
      nlinarith [ih, hv, hp]

theorem pack_inj : ∀ l₁ l₂ : List Correctness, l₁.length = l₂.length →
    Correctness.pack l₁ = Correctness.pack l₂ → l₁ = l₂ := by
  intro l₁
  induction l₁ with
  | nil =>
      intro l₂ hlen _
      cases l₂ with
      | nil => rfl
      | cons y ys => simp at hlen
  | cons x xs ih =>
      intro l₂ hlen hp
      cases l₂ with
      | nil => simp at hlen
      | cons y ys =>
          simp only [List.length_cons, Nat.succ.injEq] at hlen
          rw [pack_cons, pack_cons, hlen] at hp
          have h1 := pack_lt xs
          have h2 := pack_lt ys
          rw [hlen] at h1
          have hxy : x = y ∧ Correctness.pack xs = Correctness.pack ys := by
            cases x <;> cases y <;>
              simp only [Correctness.val] at hp <;>
              exact ⟨by first | rfl | (exfalso; omega), by omega⟩
          rw [hxy.1, ih ys hlen hxy.2]

theorem pass2_length : ∀ (gs : List Nat) (cs : List Correctness) (t : Nat → Nat),
    (pass2 gs cs t).length = min gs.length cs.length := by
  intro gs
  induction gs with
  | nil => intro cs t; cases cs <;> simp [pass2]
  | cons g gs' ih =>
      intro cs t
      cases cs with
      | nil => simp [pass2]
      | cons c cs' =>
          by_cases hc : c = Correctness.Wrong ∧ 0 < t (g - 97)
          · simp [pass2, if_pos hc, ih]
            omega
          · simp [pass2, if_neg hc, ih]
            omega

theorem compute_length (A B : List Nat) (hA : A.length = 5) (hB : B.length = 5) :
    (Correctness.compute A B).length = 5 := by
  show (pass2 B (pass1 A B (fun _ => 0)).1 (pass1 A B (fun _ => 0)).2).length = 5
  rw [pass2_length, pass1_fst]
  simp [zipCorr, List.length_zipWith, hA, hB]

theorem sum_range_addAt (t : Nat → ℚ) (k : Nat) (w : ℚ) (hk : k < 243) :
    (Finset.range 243).sum (addAt t k w) = (Finset.range 243).sum t + w := by
  have h1 : ∀ j ∈ Finset.range 243, addAt t k w j = t j + (if j = k then w else 0) := by
    intro j _
    unfold addAt
    by_cases hj : j = k
    · simp [hj]
    · simp [hj]
  rw [Finset.sum_congr rfl h1, Finset.sum_add_distrib,
    Finset.sum_ite_eq' (Finset.range 243) k (fun _ => w)]
  simp [Finset.mem_range.mpr hk]

theorem totals_conservation_aux (word : List Nat) (word_idx : Nat) :
    ∀ (remaining : List Entry) (t : Nat → ℚ) (inr : Bool),
    word.length = 5 → (∀ e ∈ remaining, e.word.length = 5) →
    (Finset.range 243).sum (totalsLoopNC word word_idx remaining t inr).1 =
      (Finset.range 243).sum t + (remaining.map Entry.weight).sum := by
  intro remaining
  induction remaining with
  | nil => intro t inr _ _; simp [totalsLoopNC]
  | cons e rest ih =>
      intro t inr hw hcand
      have he : e.word.length = 5 := hcand e (List.mem_cons_self e rest)
      have hbucket : packedCorrectnessFrom (Correctness.compute e.word word) < 243 := by
        have := pack_lt (Correctness.compute e.word word)
        rw [compute_length e.word word he hw] at this
        exact this
      rw [totalsLoopNC,
        ih _ _ hw (fun x hx => hcand x (List.mem_cons_of_mem e hx)),
        sum_range_addAt _ _ _ hbucket]
      simp [List.map_cons, List.sum_cons]
      ring

/-- C2: for every guess word and remaining set of weighted candidates
(non-negative weights), after accumulating
totals[pack(compute(candidate, word))] += weight over all remaining
candidates, the sum of the 243 bucket totals equals the sum of the weights
of the remaining set exactly: pack of compute is a total function into
[0, 243), so each candidate lands in exactly one bucket. Weights are
embedded as exact rationals. -/
theorem totals_conservation (word : List Nat) (word_idx : Nat)
    (remaining : List Entry)
    (hw : word.length = 5) (hc : ∀ e ∈ remaining, e.word.length = 5)
    (hnn : ∀ e ∈ remaining, 0 ≤ e.weight) :
    (Finset.range 243).sum (totalsLoopNC word word_idx remaining (fun _ => 0) false).1 =
      (remaining.map Entry.weight).sum := by
  rw [totals_conservation_aux word word_idx remaining (fun _ => 0) false hw hc]
  simp

theorem totals_conservation_witness :
    wABCDE.length = 5 ∧
      (∀ e ∈ [Entry.mk wAABBB (3/2) 0, Entry.mk wFGHIJ (5/7) 1], e.word.length = 5) ∧
      (∀ e ∈ [Entry.mk wAABBB (3/2) 0, Entry.mk wFGHIJ (5/7) 1], 0 ≤ e.weight) ∧
      (Finset.range 243).sum
        (totalsLoopNC wABCDE 9 [Entry.mk wAABBB (3/2) 0, Entry.mk wFGHIJ (5/7) 1]
          (fun _ => 0) false).1 =
        ([Entry.mk wAABBB (3/2) 0, Entry.mk wFGHIJ (5/7) 1].map Entry.weight).sum :=
  ⟨by decide, by decide, by norm_num [List.mem_cons], totals_conservation wABCDE 9 _
    (by decide) (by decide) (by norm_num [List.mem_cons])⟩

/-- C9: for every option combination (and every goodness function, cache
state and initial dictionary), calling Solver::guess with an empty history
returns the canonical word "tares" without running the scoring loop; the
remaining set is left unfiltered and only `last_guess_idx` is recorded. -/
theorem guess_empty_history_tares (G : GoodnessFn) (initial : List Entry)
    (s : Solver) (cache : CacheT) (h : ∃ e ∈ s.remaining, e.word = tares) :
    ∃ i, Solver.guessM G initial s cache [] =
      some (tares, { s with remaining := s.remaining, last_guess_idx := some i }, cache) := by
  obtain ⟨e, he, hw⟩ := h
  have hfind : ∃ e2, s.remaining.find? (fun e => decide (e.word = tares)) = some e2 := by
    cases hf : s.remaining.find? (fun e => decide (e.word = tares)) with
    | some e2 => exact ⟨e2, rfl⟩
    | none =>
        exfalso
        have := List.find?_eq_none.mp hf e he
        simp [hw] at this
  obtain ⟨e2, hf⟩ := hfind
  refine ⟨e2.idx, ?_⟩
  simp only [Solver.guessM, filterStep, List.getLast?, List.isEmpty_nil, if_pos rfl, hf]
  simp

theorem guess_empty_history_tares_witness :
    (∃ e ∈ [Entry.mk tares 1 0], e.word = tares) ∧
      ∃ i, Solver.guessM (fun _ _ _ _ _ _ => 0) []
          (Solver.mk [Entry.mk tares 1 0] (Options.mk true Rank.ExpectedScore true true true)
            none)
          (fun _ _ => none) [] =
        some (tares,
          { Solver.mk [Entry.mk tares 1 0] (Options.mk true Rank.ExpectedScore true true true)
              none with
            remaining := [Entry.mk tares 1 0], last_guess_idx := some i },
          fun _ _ => none) :=
  ⟨⟨Entry.mk tares 1 0, List.mem_cons_self _ _, rfl⟩,
    guess_empty_history_tares (fun _ _ _ _ _ _ => 0) []
      (Solver.mk [Entry.mk tares 1 0] (Options.mk true Rank.ExpectedScore true true true) none)
      (fun _ _ => none)
      ⟨Entry.mk tares 1 0, List.mem_cons_self _ _, rfl⟩⟩

/-- C4: if filtering by the last history entry empties the Solver's
remaining set, Solver::guess aborts (models the failed
`assert!(!self.remaining.is_empty())`, or the failed `first().unwrap()`
when rank_by is First) rather than returning a word, for every option
combination. -/
theorem guess_empty_remaining_aborts (G : GoodnessFn) (initial : List Entry)
    (s : Solver) (cache : CacheT) (history : List Guess) (cache2 : CacheT)
    (hne : history ≠ []) (hempty : filterStep s cache history = some ([], cache2)) :
    Solver.guessM G initial s cache history = none := by
  have hni : history.isEmpty = false := by
    cases history with
    | nil => exact absurd rfl hne
    | cons a as => rfl
  simp only [Solver.guessM, hempty, hni, Bool.false_eq_true, if_false]
  by_cases hr : s.options.rank_by = Rank.First ∨ ([] : List Entry).length = 1
  · simp [hr, List.head?]
  · simp [hr]

theorem trimCacheLoop_sublist (lastWord : List Nat) (reference : Nat) :
    ∀ (l : List Entry) (row : Nat → Option Nat),
    (trimCacheLoop lastWord reference l row).1.Sublist l := by
  intro l
  induction l with
  | nil => intro row; simp [trimCacheLoop]
  | cons e rest ih =>
      intro row
      simp only [trimCacheLoop]
      by_cases hc : reference = (get_packed row lastWord e.word e.idx).1
      · simp only [if_pos hc]
        exact List.Sublist.cons₂ e (ih _)
      · simp only [if_neg hc]
        exact List.Sublist.cons e (ih _)

theorem filterStep_sublist (s : Solver) (cache : CacheT) (history : List Guess)
    (rem : List Entry) (cache2 : CacheT)
    (h : filterStep s cache history = some (rem, cache2)) :
    rem.Sublist s.remaining := by
  unfold filterStep at h
  split at h
  · simp only [Option.some.injEq, Prod.mk.injEq] at h
    rw [← h.1]
  · split at h
    · split at h
      · exact absurd h (by simp)
      · simp only [Option.some.injEq, Prod.mk.injEq] at h
        rw [← h.1]
        exact trimCacheLoop_sublist _ _ _ _
    · simp only [Option.some.injEq, Prod.mk.injEq] at h
      rw [← h.1]
      exact List.filter_sublist _

theorem guessM_shape (G : GoodnessFn) (initial : List Entry) (s : Solver)
    (cache : CacheT) (history : List Guess) (rem : List Entry) (cache1 : CacheT)
    (hfs : filterStep s cache history = some (rem, cache1)) :
    Solver.guessM G initial s cache history = none ∨
    ∃ w i c2, Solver.guessM G initial s cache history =
      some (w, { s with remaining := rem, last_guess_idx := some i }, c2) := by
  simp only [Solver.guessM, hfs]
  split
  · split
    · exact Or.inl rfl
    · exact Or.inr ⟨_, _, _, rfl⟩
  · split
    · split
      · exact Or.inl rfl
      · exact Or.inr ⟨_, _, _, rfl⟩
    · split
      · exact Or.inl rfl
      · split
        · exact Or.inl rfl
        · split
          · exact Or.inl rfl
          · exact Or.inr ⟨_, _, _, rfl⟩

/-- C8: the Solver's remaining set only ever shrinks: whenever Solver::guess
returns, the new remaining set (the one produced by the filtering step, and
carried unchanged through the rest of the call) is a sublist -- hence a
subset, of no greater size -- of the remaining set before the call, for
both the cache-based and the oracle-based filter. -/
theorem guess_remaining_sublist (G : GoodnessFn) (initial : List Entry)
    (s : Solver) (cache : CacheT) (history : List Guess)
    (w : List Nat) (s2 : Solver) (c2 : CacheT)
    (h : Solver.guessM G initial s cache history = some (w, s2, c2)) :
    s2.remaining.Sublist s.remaining := by
  cases hfs : filterStep s cache history with
  | none =>
      exfalso
      simp only [Solver.guessM, hfs] at h
      exact Option.noConfusion h
  | some rc =>
      obtain ⟨rem, cache1⟩ := rc
      rcases guessM_shape G initial s cache history rem cache1 hfs with hn | ⟨w2, i, c3, he⟩
      · rw [hn] at h; exact absurd h (by simp)
      · rw [he] at h
        simp only [Option.some.injEq, Prod.mk.injEq] at h
        have hs2 : s2.remaining = rem := by rw [← h.2.1]
        rw [hs2]
        exact filterStep_sublist s cache history rem cache1 hfs

theorem totalsLoopNC_inr (word : List Nat) (word_idx : Nat) :
    ∀ (l : List Entry) (t : Nat → ℚ) (inr : Bool),
    (totalsLoopNC word word_idx l t inr).2 =
      (inr || l.any (fun c => decide (word_idx = c.idx))) := by
  intro l
  induction l with
  | nil => intro t inr; simp [totalsLoopNC]
  | cons e rest ih =>
      intro t inr
      simp only [totalsLoopNC, ih, List.any_cons]
      cases inr <;> cases hd : decide (word_idx = e.idx) <;> simp

theorem totalsLoop_inr (word : List Nat) (word_idx : Nat) :
    ∀ (l : List Entry) (row : Nat → Option Nat) (t : Nat → ℚ) (inr : Bool),
    (totalsLoop word word_idx l row t inr).2.1 =
      (inr || l.any (fun c => decide (word_idx = c.idx))) := by
  intro l
  induction l with
  | nil => intro row t inr; simp [totalsLoop]
  | cons e rest ih =>
      intro row t inr
      simp only [totalsLoop, ih, List.any_cons]
      cases inr <;> cases hd : decide (word_idx = e.idx) <;> simp

theorem totalsStep_inr (opts : Options) (remaining : List Entry) (e : Entry)
    (cache : CacheT) :
    (totalsStep opts remaining e cache).2.1 = inRemaining remaining e := by
  unfold totalsStep
  by_cases hc : opts.cache
  · simp only [if_pos hc, totalsLoop_inr, Bool.false_or]
    rfl
  · simp only [if_neg hc, totalsLoopNC_inr, Bool.false_or]
    rfl

theorem scoreLoop_scored_take (G : GoodnessFn) (opts : Options) (score : ℚ)
    (weights : List ℚ) (remaining : List Entry) (stop : Nat) :
    ∀ (consider : List Entry) (best : Option Candidate) (i : Nat) (cache : CacheT),
    (scoreLoop G opts score weights remaining stop consider best i cache).scored =
      consider.take
        (scoreLoop G opts score weights remaining stop consider best i cache).scored.length := by
  intro consider
  induction consider with
  | nil => intro best i cache; simp [scoreLoop]
  | cons e rest ih =>
      intro best i cache
      simp only [scoreLoop]
      by_cases hcond : (opts.cutoff && (totalsStep opts remaining e cache).2.1) = true
      · rw [if_pos hcond]
        by_cases hstop : stop ≤ i + 1
        · rw [if_pos hstop]
          rfl
        · rw [if_neg hstop]
          simp only [List.length_cons, List.take_succ_cons, List.cons.injEq, true_and]
          exact ih _ _ _
      · rw [if_neg hcond]
        simp only [List.length_cons, List.take_succ_cons, List.cons.injEq, true_and]
        exact ih _ _ _

theorem scoreLoop_cutoff_count (G : GoodnessFn) (opts : Options) (score : ℚ)
    (weights : List ℚ) (remaining : List Entry) (stop : Nat)
    (hcut : opts.cutoff = true) :
    ∀ (consider : List Entry) (best : Option Candidate) (i : Nat) (cache : CacheT),
    i < stop →
    ((scoreLoop G opts score weights remaining stop consider best i cache).scored.countP
        (fun e => inRemaining remaining e)) ≤ stop - i := by
  intro consider
  induction consider with
  | nil => intro best i cache hi; simp [scoreLoop]
  | cons e rest ih =>
      intro best i cache hi
      cases hb : inRemaining remaining e with
      | true =>
          simp only [scoreLoop, totalsStep_inr, hb, hcut, Bool.true_and]
          rw [if_pos trivial]
          by_cases hstop : stop ≤ i + 1
          · rw [if_pos hstop]
            simp [List.countP_cons, hb]
            omega
          · rw [if_neg hstop]
            have hx := ih (some (bestStep best e
                (G opts.rank_by score weights (totalsStep opts remaining e cache).1
                  true e.weight)))
              (i + 1) ((totalsStep opts remaining e cache).2.2) (by omega)
            simp only [List.countP_cons, hb, if_pos trivial]
            omega
      | false =>
          simp only [scoreLoop, totalsStep_inr, hb, hcut, Bool.true_and]
          rw [if_neg (by simp)]
          have hx := ih (some (bestStep best e
              (G opts.rank_by score weights (totalsStep opts remaining e cache).1
                false e.weight)))
            i ((totalsStep opts remaining e cache).2.2) hi
          simp only [List.countP_cons, hb]
          simp only [Bool.false_eq_true, if_false]
          omega

/-- C6: when the cutoff option is enabled, a scoring turn of Solver::guess
scores at most max(|remaining|/3, 20) candidates of the remaining set,
capped at |remaining| (the loop breaks once that many remaining-set members
have been scored), and the scored candidates form a prefix of the
consideration list, i.e. are taken in the Dictionary's static
(descending-weight) order. -/
theorem scoreLoop_cutoff_spec (G : GoodnessFn) (opts : Options) (score : ℚ)
    (weights : List ℚ) (remaining consider : List Entry) (cache : CacheT)
    (hcut : opts.cutoff = true) (hne : remaining ≠ []) :
    (scoreLoop G opts score weights remaining
        (min (max (remaining.length / 3) 20) remaining.length) consider none 0 cache).scored =
      consider.take
        (scoreLoop G opts score weights remaining
          (min (max (remaining.length / 3) 20) remaining.length) consider none 0
          cache).scored.length ∧
    ((scoreLoop G opts score weights remaining
        (min (max (remaining.length / 3) 20) remaining.length) consider none 0
        cache).scored.countP (fun e => inRemaining remaining e)) ≤
      min (max (remaining.length / 3) 20) remaining.length := by
  have hlen : 0 < remaining.length := by
    cases remaining with
    | nil => exact absurd rfl hne
    | cons a l => simp
  have hstop : 0 < min (max (remaining.length / 3) 20) remaining.length :=
    lt_min_iff.mpr ⟨lt_of_lt_of_le (by norm_num) (le_max_right _ _), hlen⟩
  refine ⟨scoreLoop_scored_take G opts score weights remaining _ consider none 0 cache, ?_⟩
  have h2 := scoreLoop_cutoff_count G opts score weights remaining _ hcut consider none 0
    cache hstop
  simpa using h2

theorem scoreLoop_cutoff_spec_witness :
    ((Options.mk true Rank.ExpectedScore false true true).cutoff = true) ∧
    ([Entry.mk wABCDE 1 0] ≠ ([] : List Entry)) ∧
    ((scoreLoop (fun _ _ _ _ _ _ => 0) (Options.mk true Rank.ExpectedScore false true true)
        0 [1] [Entry.mk wABCDE 1 0]
        (min (max ([Entry.mk wABCDE 1 0].length / 3) 20) [Entry.mk wABCDE 1 0].length)
        [Entry.mk wABCDE 1 0] none 0 (fun _ _ => none)).scored =
      [Entry.mk wABCDE 1 0].take
        ((scoreLoop (fun _ _ _ _ _ _ => 0) (Options.mk true Rank.ExpectedScore false true true)
          0 [1] [Entry.mk wABCDE 1 0]
          (min (max ([Entry.mk wABCDE 1 0].length / 3) 20) [Entry.mk wABCDE 1 0].length)
          [Entry.mk wABCDE 1 0] none 0 (fun _ _ => none)).scored.length) ∧
      ((scoreLoop (fun _ _ _ _ _ _ => 0) (Options.mk true Rank.ExpectedScore false true true)
          0 [1] [Entry.mk wABCDE 1 0]
          (min (max ([Entry.mk wABCDE 1 0].length / 3) 20) [Entry.mk wABCDE 1 0].length)
          [Entry.mk wABCDE 1 0] none 0 (fun _ _ => none)).scored.countP
          (fun e => inRemaining [Entry.mk wABCDE 1 0] e)) ≤
        min (max ([Entry.mk wABCDE 1 0].length / 3) 20) [Entry.mk wABCDE 1 0].length) :=
  ⟨rfl, by simp,
    scoreLoop_cutoff_spec (fun _ _ _ _ _ _ => 0)
      (Options.mk true Rank.ExpectedScore false true true) 0 [1] [Entry.mk wABCDE 1 0]
      [Entry.mk wABCDE 1 0] (fun _ _ => none) rfl (by simp)⟩

theorem guess_empty_remaining_aborts_witness :
    ([Guess.mk wABCDE [Correctness.Correct, Correctness.Correct, Correctness.Correct,
        Correctness.Correct, Correctness.Correct]] ≠ ([] : List Guess)) ∧
    filterStep
        (Solver.mk [Entry.mk wFGHIJ 1 1] (Options.mk true Rank.First false true true) (some 0))
        (fun _ _ => none)
        [Guess.mk wABCDE [Correctness.Correct, Correctness.Correct, Correctness.Correct,
          Correctness.Correct, Correctness.Correct]] =
      some ([], fun _ _ => none) ∧
    Solver.guessM (fun _ _ _ _ _ _ => 0) []
        (Solver.mk [Entry.mk wFGHIJ 1 1] (Options.mk true Rank.First false true true) (some 0))
        (fun _ _ => none)
        [Guess.mk wABCDE [Correctness.Correct, Correctness.Correct, Correctness.Correct,
          Correctness.Correct, Correctness.Correct]] = none :=
  ⟨by simp, rfl,
    guess_empty_remaining_aborts (fun _ _ _ _ _ _ => 0) []
      (Solver.mk [Entry.mk wFGHIJ 1 1] (Options.mk true Rank.First false true true) (some 0))
      (fun _ _ => none)
      [Guess.mk wABCDE [Correctness.Correct, Correctness.Correct, Correctness.Correct,
        Correctness.Correct, Correctness.Correct]]
      (fun _ _ => none) (by simp) rfl⟩

theorem guess_remaining_sublist_witness :
    (Solver.guessM (fun _ _ _ _ _ _ => 0) []
        (Solver.mk [Entry.mk tares 1 0] (Options.mk true Rank.ExpectedScore true true true)
          none)
        (fun _ _ => none) [] =
      some (tares,
        Solver.mk [Entry.mk tares 1 0] (Options.mk true Rank.ExpectedScore true true true)
          (some 0),
        fun _ _ => none)) ∧
    (Solver.mk [Entry.mk tares 1 0] (Options.mk true Rank.ExpectedScore true true true)
        (some 0)).remaining.Sublist
      (Solver.mk [Entry.mk tares 1 0] (Options.mk true Rank.ExpectedScore true true true)
        none).remaining :=
  ⟨rfl,
    guess_remaining_sublist (fun _ _ _ _ _ _ => 0) []
      (Solver.mk [Entry.mk tares 1 0] (Options.mk true Rank.ExpectedScore true true true) none)
      (fun _ _ => none) [] tares
      (Solver.mk [Entry.mk tares 1 0] (Options.mk true Rank.ExpectedScore true true true)
        (some 0))
      (fun _ _ => none) rfl⟩

theorem gdOf_eq (G : GoodnessFn) (rank : Rank) (score : ℚ) (weights : List ℚ)
    (remaining : List Entry) (e : Entry) :
    G rank score weights (totalsLoopNC e.word e.idx remaining (fun _ => 0) false).1
      (totalsLoopNC e.word e.idx remaining (fun _ => 0) false).2 e.weight =
    gdOf G rank score weights remaining e := rfl

theorem totalsStep_nc (opts : Options) (remaining : List Entry) (e : Entry)
    (cache : CacheT) (h : opts.cache = false) :
    totalsStep opts remaining e cache =
      ⟨(totalsLoopNC e.word e.idx remaining (fun _ => 0) false).1,
        (totalsLoopNC e.word e.idx remaining (fun _ => 0) false).2, cache⟩ := by
  unfold totalsStep
  rw [h]
  simp

theorem bestStep_cases (c : Candidate) (e : Entry) (g : ℚ) :
    (g > c.goodness ∧ bestStep (some c) e g = ⟨e.word, g, e.idx⟩) ∨
    (g ≤ c.goodness ∧ bestStep (some c) e g = c) := by
  unfold bestStep
  by_cases h : g > c.goodness
  · left; exact ⟨h, if_pos h⟩
  · right; exact ⟨le_of_not_lt h, if_neg h⟩

theorem scoreLoop_best_aux (G : GoodnessFn) (opts : Options) (score : ℚ)
    (weights : List ℚ) (remaining : List Entry) (stop : Nat)
    (hnc : opts.cache = false) :
    ∀ (consider : List Entry) (i : Nat) (cache : CacheT) (c : Candidate),
    List.Pairwise (fun a b => a.idx < b.idx) consider →
    (∀ e ∈ consider, c.idx < e.idx) →
    ∃ b, (scoreLoop G opts score weights remaining stop consider (some c) i cache).best =
        some b ∧
      c.goodness ≤ b.goodness ∧
      (b = c ∨ ∃ e ∈ (scoreLoop G opts score weights remaining stop consider (some c) i
          cache).scored,
        b.word = e.word ∧ b.idx = e.idx ∧
        b.goodness = gdOf G opts.rank_by score weights remaining e ∧
        c.goodness < b.goodness) ∧
      (∀ e ∈ (scoreLoop G opts score weights remaining stop consider (some c) i cache).scored,
        gdOf G opts.rank_by score weights remaining e ≤ b.goodness ∧
        (gdOf G opts.rank_by score weights remaining e = b.goodness → b.idx ≤ e.idx)) := by
  intro consider
  induction consider with
  | nil =>
      intro i cache c _ _
      exact ⟨c, rfl, le_refl _, Or.inl rfl, by simp [scoreLoop]⟩
  | cons e rest ih =>
      intro i cache c hsorted hlt
      simp only [scoreLoop, totalsStep_nc _ _ _ _ hnc, gdOf_eq]
      have hlt_e : c.idx < e.idx := hlt e (List.mem_cons_self e rest)
      have hsorted' : List.Pairwise (fun a b => a.idx < b.idx) rest := hsorted.tail
      have hhead : ∀ x ∈ rest, e.idx < x.idx := fun x hx =>
        (List.pairwise_cons.mp hsorted).1 x hx
      rcases bestStep_cases c e (gdOf G opts.rank_by score weights remaining e) with
        ⟨hgt, hbs⟩ | ⟨hle, hbs⟩
      · -- the new candidate strictly improves: it becomes the incumbent
        rw [hbs]
        have hlt' : ∀ x ∈ rest, (⟨e.word, gdOf G opts.rank_by score weights remaining e,
            e.idx⟩ : Candidate).idx < x.idx := hhead
        by_cases hcond : (opts.cutoff &&
            (totalsLoopNC e.word e.idx remaining (fun _ => 0) false).2) = true
        · rw [if_pos hcond]
          by_cases hstop : stop ≤ i + 1
          · rw [if_pos hstop]
            refine ⟨_, rfl, le_of_lt hgt, ?_, ?_⟩
            · exact Or.inr ⟨e, List.mem_cons_self e [], rfl, rfl, rfl, hgt⟩
            · intro x hx
              rcases List.mem_singleton.mp hx with rfl
              exact ⟨le_refl _, fun _ => le_refl _⟩
          · rw [if_neg hstop]
            obtain ⟨b, hbbest, hcb, hdisj, hall⟩ := ih (i + 1) cache _ hsorted' hlt'
            refine ⟨b, hbbest, le_trans (le_of_lt hgt) hcb, ?_, ?_⟩
            · rcases hdisj with hbc | ⟨x, hxmem, hxw, hxi, hxg, hxlt⟩
              · refine Or.inr ⟨e, List.mem_cons_self e _, ?_, ?_, ?_, ?_⟩
                · rw [hbc]
                · rw [hbc]
                · rw [hbc]
                · rw [hbc]; exact hgt
              · exact Or.inr ⟨x, List.mem_cons_of_mem e hxmem, hxw, hxi, hxg,
                  lt_of_le_of_lt (le_of_lt hgt) hxlt⟩
            · intro x hx
              rcases List.mem_cons.mp hx with rfl | hx
              · refine ⟨hcb, fun htie => ?_⟩
                have hbc : b = ⟨x.word, gdOf G opts.rank_by score weights remaining x,
                    x.idx⟩ := by
                  rcases hdisj with hbc | ⟨y, _, _, _, _, hylt⟩
                  · exact hbc
                  · exact absurd hylt (by simp [htie])
                rw [hbc]
              · exact hall x hx
        · rw [if_neg hcond]
          obtain ⟨b, hbbest, hcb, hdisj, hall⟩ := ih i cache _ hsorted' hlt'
          refine ⟨b, hbbest, le_trans (le_of_lt hgt) hcb, ?_, ?_⟩
          · rcases hdisj with hbc | ⟨x, hxmem, hxw, hxi, hxg, hxlt⟩
            · refine Or.inr ⟨e, List.mem_cons_self e _, ?_, ?_, ?_, ?_⟩
              · rw [hbc]
              · rw [hbc]
              · rw [hbc]
              · rw [hbc]; exact hgt
            · exact Or.inr ⟨x, List.mem_cons_of_mem e hxmem, hxw, hxi, hxg,
                lt_of_le_of_lt (le_of_lt hgt) hxlt⟩
          · intro x hx
            rcases List.mem_cons.mp hx with rfl | hx
            · refine ⟨hcb, fun htie => ?_⟩
              have hbc : b = ⟨x.word, gdOf G opts.rank_by score weights remaining x,
                  x.idx⟩ := by
                rcases hdisj with hbc | ⟨y, _, _, _, _, hylt⟩
                · exact hbc
                · exact absurd hylt (by simp [htie])
              rw [hbc]
            · exact hall x hx
      · -- the incumbent survives
        rw [hbs]
        by_cases hcond : (opts.cutoff &&
            (totalsLoopNC e.word e.idx remaining (fun _ => 0) false).2) = true
        · rw [if_pos hcond]
          by_cases hstop : stop ≤ i + 1
          · rw [if_pos hstop]
            refine ⟨c, rfl, le_refl _, Or.inl rfl, ?_⟩
            intro x hx
            rcases List.mem_singleton.mp hx with rfl
            exact ⟨hle, fun _ => le_of_lt hlt_e⟩
          · rw [if_neg hstop]
            obtain ⟨b, hbbest, hcb, hdisj, hall⟩ := ih (i + 1) cache c hsorted'
              (fun x hx => hlt x (List.mem_cons_of_mem e hx))
            refine ⟨b, hbbest, hcb, ?_, ?_⟩
            · rcases hdisj with hbc | ⟨x, hxmem, hxw, hxi, hxg, hxlt⟩
              · exact Or.inl hbc
              · exact Or.inr ⟨x, List.mem_cons_of_mem e hxmem, hxw, hxi, hxg, hxlt⟩
            · intro x hx
              rcases List.mem_cons.mp hx with rfl | hx
              · refine ⟨le_trans hle hcb, fun htie => ?_⟩
                have hba : b.goodness ≤ c.goodness := by rw [← htie]; exact hle
                have hcgb : c.goodness = b.goodness := le_antisymm hcb hba
                have hbc : b = c := by
                  rcases hdisj with hbc | ⟨y, hy1, hy2, hy3, hy4, hylt⟩
                  · exact hbc
                  · exact absurd hylt (by rw [hcgb]; exact lt_irrefl _)
                rw [hbc]
                exact le_of_lt hlt_e
              · exact hall x hx
        · rw [if_neg hcond]
          obtain ⟨b, hbbest, hcb, hdisj, hall⟩ := ih i cache c hsorted'
            (fun x hx => hlt x (List.mem_cons_of_mem e hx))
          refine ⟨b, hbbest, hcb, ?_, ?_⟩
          · rcases hdisj with hbc | ⟨x, hxmem, hxw, hxi, hxg, hxlt⟩
            · exact Or.inl hbc
            · exact Or.inr ⟨x, List.mem_cons_of_mem e hxmem, hxw, hxi, hxg, hxlt⟩
          · intro x hx
            rcases List.mem_cons.mp hx with rfl | hx
            · refine ⟨le_trans hle hcb, fun htie => ?_⟩
              have hba : b.goodness ≤ c.goodness := by rw [← htie]; exact hle
              have hcgb : c.goodness = b.goodness := le_antisymm hcb hba
              have hbc : b = c := by
                rcases hdisj with hbc | ⟨y, hy1, hy2, hy3, hy4, hylt⟩
                · exact hbc
                · exact absurd hylt (by rw [hcgb]; exact lt_irrefl _)
              rw [hbc]
              exact le_of_lt hlt_e
            · exact hall x hx

/-- C7: in a scoring turn, if several scored candidates attain the maximal
goodness, the returned best candidate is the tied candidate with the lowest
original dictionary index: the strict `goodness > best.goodness` comparison
keeps the earliest-scanned candidate, and the consideration list is scanned
in (strictly increasing) dictionary-index order. Stated for the uncached
loop, whose goodness for an entry is the pure function `gdOf`. -/
theorem scoreLoop_tiebreak (G : GoodnessFn) (opts : Options) (score : ℚ)
    (weights : List ℚ) (remaining : List Entry) (stop : Nat) (consider : List Entry)
    (cache : CacheT) (b : Candidate)
    (hnc : opts.cache = false)
    (hsorted : List.Pairwise (fun a b => a.idx < b.idx) consider)
    (hb : (scoreLoop G opts score weights remaining stop consider none 0 cache).best =
      some b) :
    (∃ e ∈ (scoreLoop G opts score weights remaining stop consider none 0 cache).scored,
        b.word = e.word ∧ b.idx = e.idx ∧
        b.goodness = gdOf G opts.rank_by score weights remaining e) ∧
    ∀ e ∈ (scoreLoop G opts score weights remaining stop consider none 0 cache).scored,
      gdOf G opts.rank_by score weights remaining e ≤ b.goodness ∧
      (gdOf G opts.rank_by score weights remaining e = b.goodness → b.idx ≤ e.idx) := by
  cases consider with
  | nil => simp [scoreLoop] at hb
  | cons e rest =>
      have hhead : ∀ x ∈ rest, e.idx < x.idx := fun x hx =>
        (List.pairwise_cons.mp hsorted).1 x hx
      have hsorted' : List.Pairwise (fun a b => a.idx < b.idx) rest := hsorted.tail
      simp only [scoreLoop, totalsStep_nc _ _ _ _ hnc, gdOf_eq, bestStep] at hb ⊢
      by_cases hcond : (opts.cutoff &&
          (totalsLoopNC e.word e.idx remaining (fun _ => 0) false).2) = true
      · rw [if_pos hcond] at hb ⊢
        by_cases hstop : stop ≤ 0 + 1
        · rw [if_pos hstop] at hb ⊢
          have hbe : b = ⟨e.word, gdOf G opts.rank_by score weights remaining e, e.idx⟩ :=
            (Option.some.inj hb).symm
          subst hbe
          refine ⟨⟨e, List.mem_cons_self e _, rfl, rfl, rfl⟩, ?_⟩
          intro x hx
          rcases List.mem_singleton.mp hx with rfl
          exact ⟨le_refl _, fun _ => le_refl _⟩
        · rw [if_neg hstop] at hb ⊢
          obtain ⟨b', hb', hcb, hdisj, hall⟩ :=
            scoreLoop_best_aux G opts score weights remaining stop hnc rest (0 + 1) cache
              ⟨e.word, gdOf G opts.rank_by score weights remaining e, e.idx⟩ hsorted' hhead
          have hbb : b' = b := Option.some.inj (hb'.symm.trans hb)
          subst hbb
          refine ⟨?_, ?_⟩
          · rcases hdisj with hbc | ⟨x, hxmem, hxw, hxi, hxg, hxlt⟩
            · exact ⟨e, List.mem_cons_self e _, by rw [hbc], by rw [hbc], by rw [hbc]⟩
            · exact ⟨x, List.mem_cons_of_mem e hxmem, hxw, hxi, hxg⟩
          · intro x hx
            rcases List.mem_cons.mp hx with rfl | hx
            · refine ⟨hcb, fun htie => ?_⟩
              have hbc : b' = ⟨x.word, gdOf G opts.rank_by score weights remaining x,
                  x.idx⟩ := by
                rcases hdisj with hbc | ⟨y, hy1, hy2, hy3, hy4, hylt⟩
                · exact hbc
                · exact absurd hylt (by simp [htie])
              rw [hbc]
            · exact hall x hx
      · rw [if_neg hcond] at hb ⊢
        obtain ⟨b', hb', hcb, hdisj, hall⟩ :=
          scoreLoop_best_aux G opts score weights remaining stop hnc rest 0 cache
            ⟨e.word, gdOf G opts.rank_by score weights remaining e, e.idx⟩ hsorted' hhead
        have hbb : b' = b := Option.some.inj (hb'.symm.trans hb)
        subst hbb
        refine ⟨?_, ?_⟩
        · rcases hdisj with hbc | ⟨x, hxmem, hxw, hxi, hxg, hxlt⟩
          · exact ⟨e, List.mem_cons_self e _, by rw [hbc], by rw [hbc], by rw [hbc]⟩
          · exact ⟨x, List.mem_cons_of_mem e hxmem, hxw, hxi, hxg⟩
        · intro x hx
          rcases List.mem_cons.mp hx with rfl | hx
          · refine ⟨hcb, fun htie => ?_⟩
            have hbc : b' = ⟨x.word, gdOf G opts.rank_by score weights remaining x,
                x.idx⟩ := by
              rcases hdisj with hbc | ⟨y, hy1, hy2, hy3, hy4, hylt⟩
              · exact hbc
              · exact absurd hylt (by simp [htie])
            rw [hbc]
          · exact hall x hx

theorem scoreLoop_tiebreak_witness :
    ((Options.mk true Rank.ExpectedScore false false true).cache = false) ∧
    List.Pairwise (fun a b => a.idx < b.idx)
      [Entry.mk wABCDE 1 0, Entry.mk wFGHIJ 1 1] ∧
    ((scoreLoop (fun _ _ _ _ _ _ => 0)
        (Options.mk true Rank.ExpectedScore false false true) 0 [1, 1]
        [Entry.mk wABCDE 1 0, Entry.mk wFGHIJ 1 1] 5
        [Entry.mk wABCDE 1 0, Entry.mk wFGHIJ 1 1] none 0 (fun _ _ => none)).best = some (Candidate.mk wABCDE 0 0)) ∧
    ((∃ e ∈ (scoreLoop (fun _ _ _ _ _ _ => 0)
        (Options.mk true Rank.ExpectedScore false false true) 0 [1, 1]
        [Entry.mk wABCDE 1 0, Entry.mk wFGHIJ 1 1] 5
        [Entry.mk wABCDE 1 0, Entry.mk wFGHIJ 1 1] none 0 (fun _ _ => none)).scored,
        (Candidate.mk wABCDE 0 0).word = e.word ∧ (Candidate.mk wABCDE 0 0).idx = e.idx ∧
        (Candidate.mk wABCDE 0 0).goodness =
          gdOf (fun _ _ _ _ _ _ => 0) (Options.mk true Rank.ExpectedScore false false true).rank_by
          0 [1, 1] [Entry.mk wABCDE 1 0, Entry.mk wFGHIJ 1 1] e) ∧
      ∀ e ∈ (scoreLoop (fun _ _ _ _ _ _ => 0)
        (Options.mk true Rank.ExpectedScore false false true) 0 [1, 1]
        [Entry.mk wABCDE 1 0, Entry.mk wFGHIJ 1 1] 5
        [Entry.mk wABCDE 1 0, Entry.mk wFGHIJ 1 1] none 0 (fun _ _ => none)).scored,
        gdOf (fun _ _ _ _ _ _ => 0) (Options.mk true Rank.ExpectedScore false false true).rank_by
          0 [1, 1] [Entry.mk wABCDE 1 0, Entry.mk wFGHIJ 1 1] e ≤ (Candidate.mk wABCDE 0 0).goodness ∧
        (gdOf (fun _ _ _ _ _ _ => 0) (Options.mk true Rank.ExpectedScore false false true).rank_by
          0 [1, 1] [Entry.mk wABCDE 1 0, Entry.mk wFGHIJ 1 1] e = (Candidate.mk wABCDE 0 0).goodness →
          (Candidate.mk wABCDE 0 0).idx ≤ e.idx)) :=
  ⟨rfl, by decide, rfl,
    scoreLoop_tiebreak (fun _ _ _ _ _ _ => 0)
      (Options.mk true Rank.ExpectedScore false false true) 0 [1, 1]
      [Entry.mk wABCDE 1 0, Entry.mk wFGHIJ 1 1] 5
      [Entry.mk wABCDE 1 0, Entry.mk wFGHIJ 1 1] (fun _ _ => none)
      (Candidate.mk wABCDE 0 0) rfl (by decide) rfl⟩

theorem get_packed_spec (dict : Nat → List Nat) (g answer : List Nat) (answer_idx : Nat)
    (row : Nat → Option Nat) (hrow : rowInv dict g row) (hans : answer = dict answer_idx) :
    (get_packed row g answer answer_idx).1 =
      packedCorrectnessFrom (Correctness.compute answer g) ∧
    rowInv dict g (get_packed row g answer answer_idx).2 := by
  unfold get_packed
  cases hc : row answer_idx with
  | some a =>
      refine ⟨?_, hrow⟩
      rw [hrow answer_idx a hc, hans]
  | none =>
      constructor
      · rfl
      · intro j v hj
        by_cases hja : j = answer_idx
        · subst hja
          simp at hj
          rw [← hans]
          omega
        · simp only [if_neg hja] at hj
          exact hrow j v hj

theorem trimCacheLoop_spec (dict : Nat → List Nat) (lastWord : List Nat) (reference : Nat) :
    ∀ (l : List Entry) (row : Nat → Option Nat),
    rowInv dict lastWord row → (∀ e ∈ l, e.word = dict e.idx) →
    (trimCacheLoop lastWord reference l row).1 =
      l.filter (fun e =>
        decide (reference = packedCorrectnessFrom (Correctness.compute e.word lastWord))) ∧
    rowInv dict lastWord (trimCacheLoop lastWord reference l row).2 := by
  intro l
  induction l with
  | nil => intro row hrow _; exact ⟨rfl, hrow⟩
  | cons e rest ih =>
      intro row hrow hcons
      have he : e.word = dict e.idx := hcons e (List.mem_cons_self e rest)
      obtain ⟨hval, hrow2⟩ := get_packed_spec dict lastWord e.word e.idx row hrow he
      obtain ⟨ihf, ihrow⟩ := ih (get_packed row lastWord e.word e.idx).2 hrow2
        (fun x hx => hcons x (List.mem_cons_of_mem e hx))
      refine ⟨?_, ihrow⟩
      simp only [trimCacheLoop, hval, List.filter_cons, ihf]
      by_cases hr : reference = packedCorrectnessFrom (Correctness.compute e.word lastWord)
      · simp [hr]
      · simp [hr]

theorem totalsLoop_spec (dict : Nat → List Nat) (word : List Nat) (word_idx : Nat) :
    ∀ (l : List Entry) (row : Nat → Option Nat) (t : Nat → ℚ) (inr : Bool),
    rowInv dict word row → (∀ e ∈ l, e.word = dict e.idx) →
    (totalsLoop word word_idx l row t inr).1 = (totalsLoopNC word word_idx l t inr).1 ∧
    (totalsLoop word word_idx l row t inr).2.1 = (totalsLoopNC word word_idx l t inr).2 ∧
    rowInv dict word (totalsLoop word word_idx l row t inr).2.2 := by
  intro l
  induction l with
  | nil => intro row t inr hrow _; exact ⟨rfl, rfl, hrow⟩
  | cons e rest ih =>
      intro row t inr hrow hcons
      have he : e.word = dict e.idx := hcons e (List.mem_cons_self e rest)
      obtain ⟨hval, hrow2⟩ := get_packed_spec dict word e.word e.idx row hrow he
      obtain ⟨ih1, ih2, ih3⟩ := ih (get_packed row word e.word e.idx).2
        (addAt t (get_packed row word e.word e.idx).1 e.weight)
        (inr || decide (word_idx = e.idx)) hrow2
        (fun x hx => hcons x (List.mem_cons_of_mem e hx))
      rw [hval] at ih1 ih2
      refine ⟨?_, ?_, ?_⟩
      · simp only [totalsLoop, totalsLoopNC, hval]
        exact ih1
      · simp only [totalsLoop, totalsLoopNC, hval]
        exact ih2
      · simp only [totalsLoop]
        exact ih3

theorem totalsStep_spec (dict : Nat → List Nat) (opts : Options) (remaining : List Entry)
    (e : Entry) (cache : CacheT)
    (hci : cacheInv dict cache) (he : e.word = dict e.idx)
    (hcons : ∀ x ∈ remaining, x.word = dict x.idx) :
    (totalsStep opts remaining e cache).1 =
      (totalsLoopNC e.word e.idx remaining (fun _ => 0) false).1 ∧
    (totalsStep opts remaining e cache).2.1 =
      (totalsLoopNC e.word e.idx remaining (fun _ => 0) false).2 ∧
    cacheInv dict (totalsStep opts remaining e cache).2.2 := by
  unfold totalsStep
  by_cases hc : opts.cache
  · rw [if_pos hc]
    have hrow : rowInv dict e.word (cache e.idx) := by
      rw [he]; exact hci e.idx
    obtain ⟨h1, h2, h3⟩ := totalsLoop_spec dict e.word e.idx remaining (cache e.idx)
      (fun _ => 0) false hrow hcons
    refine ⟨h1, h2, ?_⟩
    intro gidx
    dsimp only
    by_cases hg : gidx = e.idx
    · subst hg
      rw [if_pos rfl, ← he]
      exact h3
    · rw [if_neg hg]
      exact hci gidx
  · rw [if_neg hc]
    exact ⟨rfl, rfl, hci⟩

theorem scoreLoop_cache_toggle (dict : Nat → List Nat) (G : GoodnessFn) (opts : Options)
    (score : ℚ) (weights : List ℚ) (remaining : List Entry) (stop : Nat) :
    ∀ (consider : List Entry) (best : Option Candidate) (i : Nat) (cache cache2 : CacheT),
    cacheInv dict cache →
    (∀ e ∈ consider, e.word = dict e.idx) →
    (∀ x ∈ remaining, x.word = dict x.idx) →
    (scoreLoop G { opts with cache := true } score weights remaining stop consider best i
        cache).best =
      (scoreLoop G { opts with cache := false } score weights remaining stop consider best i
        cache2).best := by
  intro consider
  induction consider with
  | nil => intro best i cache cache2 _ _ _; rfl
  | cons e rest ih =>
      intro best i cache cache2 hci hcons hrem
      have he : e.word = dict e.idx := hcons e (List.mem_cons_self e rest)
      have hcons' : ∀ x ∈ rest, x.word = dict x.idx :=
        fun x hx => hcons x (List.mem_cons_of_mem e hx)
      obtain ⟨h1, h2, h3⟩ := totalsStep_spec dict { opts with cache := true } remaining e
        cache hci he hrem
      have hnc2 : totalsStep { opts with cache := false } remaining e cache2 =
          ⟨(totalsLoopNC e.word e.idx remaining (fun _ => 0) false).1,
            (totalsLoopNC e.word e.idx remaining (fun _ => 0) false).2, cache2⟩ :=
        totalsStep_nc _ _ _ _ rfl
      simp only [scoreLoop]
      rw [hnc2, h1, h2]
      dsimp only
      by_cases hcond : (opts.cutoff &&
          (totalsLoopNC e.word e.idx remaining (fun _ => 0) false).2) = true
      · rw [if_pos hcond, if_pos hcond]
        by_cases hstop : stop ≤ i + 1
        · rw [if_pos hstop, if_pos hstop]
        · rw [if_neg hstop, if_neg hstop]
          exact ih _ (i + 1) _ cache2 h3 hcons' hrem
      · rw [if_neg hcond, if_neg hcond]
        exact ih _ i _ cache2 h3 hcons' hrem

theorem cache_filter_pred (lw w : List Nat) (mask : List Correctness)
    (hw : validWordB w) (hlw : validWordB lw) (hm : mask.length = 5) :
    decide (packedCorrectnessFrom mask =
        packedCorrectnessFrom (Correctness.compute w lw)) =
      (Guess.mk lw mask).matches w := by
  have hiff : (packedCorrectnessFrom mask =
      packedCorrectnessFrom (Correctness.compute w lw)) ↔
      ((Guess.mk lw mask).matches w = true) := by
    rw [matches_iff_compute w lw mask hw hlw hm]
    constructor
    · intro h
      exact pack_inj (Correctness.compute w lw) mask
        (by rw [compute_length w lw hw.1 hlw.1, hm]) h.symm
    · intro h
      rw [h]
  cases hmb : (Guess.mk lw mask).matches w
  · rw [hmb] at hiff
    simp only [Bool.false_eq_true, iff_false] at hiff
    simp [hiff]
  · rw [hmb] at hiff
    simp only [iff_true] at hiff
    simp [hiff]

theorem filterStep_cache_eq (dict : Nat → List Nat) (s : Solver) (cache cache2 : CacheT)
    (history : List Guess)
    (hci : cacheInv dict cache)
    (hcons : ∀ e ∈ s.remaining, e.word = dict e.idx)
    (hvalid : ∀ e ∈ s.remaining, validWordB e.word)
    (hlast : ∀ last, history.getLast? = some last →
      validWordB last.word ∧ last.mask.length = 5 ∧
      ∃ lgi, s.last_guess_idx = some lgi ∧ dict lgi = last.word) :
    ∃ rem c3,
      filterStep { s with options := { s.options with cache := true } } cache history =
        some (rem, c3) ∧
      filterStep { s with options := { s.options with cache := false } } cache2 history =
        some (rem, cache2) ∧
      cacheInv dict c3 := by
  unfold filterStep
  cases hl : history.getLast? with
  | none => exact ⟨s.remaining, cache, rfl, rfl, hci⟩
  | some last =>
      obtain ⟨hlv, hlm, lgi, hlgi, hdlgi⟩ := hlast last hl
      dsimp only
      rw [hlgi]
      have hrow : rowInv dict last.word (cache lgi) := by
        rw [← hdlgi]; exact hci lgi
      obtain ⟨htrim, hrow'⟩ := trimCacheLoop_spec dict last.word
        (packedCorrectnessFrom last.mask) s.remaining (cache lgi) hrow hcons
      refine ⟨s.remaining.filter (fun e => last.matches e.word),
        fun gi => if gi = lgi then
          (trimCacheLoop last.word (packedCorrectnessFrom last.mask) s.remaining
            (cache lgi)).2 else cache gi, ?_, rfl, ?_⟩
      · rw [if_pos rfl]
        dsimp only
        congr 1
        refine Prod.ext ?_ rfl
        dsimp only
        rw [htrim]
        apply List.filter_congr
        intro e he
        rw [cache_filter_pred last.word e.word last.mask (hvalid e he) hlv hlm]
      · intro gidx
        dsimp only
        by_cases hg : gidx = lgi
        · subst hg
          rw [if_pos rfl, ← hdlgi] at *
          exact hrow'
        · rw [if_neg hg]
          exact hci gidx

/-- C3: for every history and option combination differing only in the
cache toggle, Solver::guess returns the same word: under the cache
invariant, the memoized lookup get_packed(row, guess, answer, answer_idx)
always returns pack(compute(answer, guess)) whether it computes the value
on first access or returns the stored one, so the cache-enabled and the
cache-disabled run produce the same guess. -/
theorem guess_cache_toggle (dict : Nat → List Nat) (G : GoodnessFn)
    (initial : List Entry) (s : Solver) (cache cache2 : CacheT) (history : List Guess)
    (hci : cacheInv dict cache)
    (hconsR : ∀ e ∈ s.remaining, e.word = dict e.idx)
    (hvalidR : ∀ e ∈ s.remaining, validWordB e.word)
    (hconsI : ∀ e ∈ initial, e.word = dict e.idx)
    (hlast : ∀ last, history.getLast? = some last →
      validWordB last.word ∧ last.mask.length = 5 ∧
      ∃ lgi, s.last_guess_idx = some lgi ∧ dict lgi = last.word) :
    (Solver.guessM G initial { s with options := { s.options with cache := true } } cache
        history).map (fun r => r.1) =
      (Solver.guessM G initial { s with options := { s.options with cache := false } }
        cache2 history).map (fun r => r.1) := by
  obtain ⟨rem, c3, hf1, hf2, hc3⟩ := filterStep_cache_eq dict s cache cache2 history hci
    hconsR hvalidR hlast
  have hsub : rem.Sublist s.remaining :=
    filterStep_sublist { s with options := { s.options with cache := true } } cache history
      rem c3 hf1
  have hconsRem : ∀ e ∈ rem, e.word = dict e.idx := fun e he =>
    hconsR e (hsub.subset he)
  have hconsider : ∀ e ∈ (if s.options.hard_mode then rem else initial),
      e.word = dict e.idx := by
    by_cases hhm : s.options.hard_mode
    · rw [if_pos hhm]; exact hconsRem
    · rw [if_neg hhm]; exact hconsI
  simp only [Solver.guessM, hf1, hf2]
  dsimp only
  by_cases hh : history.isEmpty
  · rw [if_pos hh, if_pos hh]
    cases hfind : rem.find? (fun e => decide (e.word = tares)) <;> simp [hfind]
  · rw [if_neg hh, if_neg hh]
    by_cases hr : s.options.rank_by = Rank.First ∨ rem.length = 1
    · rw [if_pos hr, if_pos hr]
      cases hhead : rem.head? <;> simp [hhead]
    · rw [if_neg hr, if_neg hr]
      by_cases hemp : rem.isEmpty
      · rw [if_pos hemp, if_pos hemp]
      · rw [if_neg hemp, if_neg hemp]
        have hbest := scoreLoop_cache_toggle dict G s.options (history.length)
          (rem.map Entry.weight) rem (min (max (rem.length / 3) 20) rem.length)
          (if s.options.hard_mode then rem else initial) none 0 c3 cache2 hc3
          hconsider hconsRem
        rw [hbest]
        cases hb : (scoreLoop G { s.options with cache := false } (history.length)
            (rem.map Entry.weight) rem (min (max (rem.length / 3) 20) rem.length)
            (if s.options.hard_mode then rem else initial) none 0 cache2).best with
        | none => rfl
        | some best =>
            by_cases hz : best.goodness = 0
            · simp [hz]
            · simp [hz]

theorem guess_cache_toggle_witness :
    (Solver.guessM (fun _ _ _ _ _ _ => 0) []
        (Solver.mk [Entry.mk wABCDE 1 0, Entry.mk wFGHIJ 1 1]
          (Options.mk true Rank.First true true true) (some 0))
        (fun _ _ => none)
        [Guess.mk wABCDE [Correctness.Wrong, Correctness.Wrong, Correctness.Wrong,
          Correctness.Wrong, Correctness.Wrong]]).map (fun r => r.1) =
      (Solver.guessM (fun _ _ _ _ _ _ => 0) []
        (Solver.mk [Entry.mk wABCDE 1 0, Entry.mk wFGHIJ 1 1]
          (Options.mk true Rank.First false true true) (some 0))
        (fun _ _ => none)
        [Guess.mk wABCDE [Correctness.Wrong, Correctness.Wrong, Correctness.Wrong,
          Correctness.Wrong, Correctness.Wrong]]).map (fun r => r.1) :=
  guess_cache_toggle (fun i => if i = 0 then wABCDE else wFGHIJ)
    (fun _ _ _ _ _ _ => 0) []
    (Solver.mk [Entry.mk wABCDE 1 0, Entry.mk wFGHIJ 1 1]
      (Options.mk true Rank.First true true true) (some 0))
    (fun _ _ => none) (fun _ _ => none)
    [Guess.mk wABCDE [Correctness.Wrong, Correctness.Wrong, Correctness.Wrong,
      Correctness.Wrong, Correctness.Wrong]]
    (fun _ _ _ h => nomatch h)
    (by decide) (by decide) (by simp)
    (by
      intro last h
      have hl : last = Guess.mk wABCDE [Correctness.Wrong, Correctness.Wrong,
          Correctness.Wrong, Correctness.Wrong, Correctness.Wrong] :=
        (Option.some.inj h).symm
      subst hl
      exact ⟨by decide, rfl, 0, rfl, rfl⟩)
